import Mathlib

/-!
Verification of gfauto (GraphicsFuzz automation) against its specification.

Shallow embedding of the relevant parts of:
  gfauto/fuzz.py                 (crash-signature classifier, fuzzing loop,
                                  run_shader_job dispatch)
  gfauto/binaries_util.py        (BinaryManager resolution)
  gfauto/util.py                 (remove_end)
  gfauto/add_amber_tests_to_cts.py (add_amber_test_to_must_pass)

Strings are modelled as lists of characters.  Python regular-expression
character classes are modelled at ASCII level: the Python patterns use
Unicode-aware classes such as backslash-w, whose restriction to ASCII is
exactly alphanumerics plus underscore.  Theorems about the classifier that
depend on this restriction carry an ASCII hypothesis on the log text.
-/

/-- ASCII model of the regex word class: alphanumerics and underscore. -/
def isWordChar (c : Char) : Bool :=
  c.isAlphanum || c == '_'

/-- Character class of PATTERN_SPIRV_OPT_ERROR's message group. -/
def isSpirvMsgChar (c : Char) : Bool :=
  isWordChar c || c == ' ' || c == '.' || c == '\'' || c == '-' || c == '"'

/-- Character class of the amber/glslang message groups: word or space. -/
def isWordOrSpace (c : Char) : Bool :=
  isWordChar c || c == ' '

/-- Model of Python re.sub removing digit runs: delete every digit. -/
def stripDigits (l : List Char) : List Char :=
  l.filter (fun c => !c.isDigit)

/-- Model of Python re.sub replacing every non-word character by underscore. -/
def subNonWord (l : List Char) : List Char :=
  l.map (fun c => if isWordChar c then c else '_')

/-- Boolean test that the first list is a prefix of the second. -/
def listStartsWith : List Char → List Char → Bool
  | [], _ => true
  | _ :: _, [] => false
  | a :: as, b :: bs => a == b && listStartsWith as bs

/-- Drop a literal prefix, or fail. -/
def dropPrefixO : List Char → List Char → Option (List Char)
  | [], l => some l
  | _ :: _, [] => none
  | a :: as, b :: bs => if a == b then dropPrefixO as bs else none

/-- Suffix of the list starting at the leftmost occurrence of the pattern;
models Python str.find followed by slicing from the found index. -/
def dropToSub (sub : List Char) : List Char → Option (List Char)
  | [] => if sub.isEmpty then some [] else none
  | c :: cs =>
    if listStartsWith sub (c :: cs) then some (c :: cs) else dropToSub sub cs

/-- Model of Python str.find(sub) being different from -1. -/
def containsSub (l sub : List Char) : Bool :=
  (dropToSub sub l).isSome

/-- Model of Python str.split on a newline: segments without the newlines. -/
def splitOnNl : List Char → List (List Char)
  | [] => [[]]
  | c :: cs =>
    if c = '\n' then [] :: splitOnNl cs
    else
      match splitOnNl cs with
      | [] => [[c]]
      | l :: ls => (c :: l) :: ls

/-- Try a matcher at every start position, left to right; models the regex
engine scanning for the leftmost match. -/
def scanSuffixes (f : List Char → Option (List Char)) : List Char → Option (List Char)
  | [] => f []
  | c :: cs =>
    match f (c :: cs) with
    | some g => some g
    | none => scanSuffixes f cs

/-- First line for which the matcher fires; models the per-line for loops of
get_signature_from_log_contents. -/
def firstLineMatch (f : List Char → Option (List Char)) : List (List Char) → Option (List Char)
  | [] => none
  | l :: ls =>
    match f l with
    | some g => some g
    | none => firstLineMatch f ls

def errorLinePart : List Char := "error: line ".data

def colonSpacePart : List Char := ": ".data

/-- PATTERN_SPIRV_OPT_ERROR, anchored at line start:
error colon line, digits, colon space, then the message group. -/
def spirvOptErrorMatch (line : List Char) : Option (List Char) :=
  match dropPrefixO errorLinePart line with
  | none => none
  | some r =>
    let d := r.takeWhile Char.isDigit
    let r1 := r.dropWhile Char.isDigit
    if d.isEmpty then none
    else
      match dropPrefixO colonSpacePart r1 with
      | none => none
      | some r2 =>
        let g := r2.takeWhile isSpirvMsgChar
        if g.isEmpty then none else some g

/-- PATTERN_AMBER_ERROR tried at one start position: a word character, colon
space, digits, colon space, then a word-or-space run reaching the end of the
line (the end-of-line anchor). -/
def amberErrorMatchAt (l : List Char) : Option (List Char) :=
  match l with
  | c :: ':' :: ' ' :: r =>
    if isWordChar c then
      let d := r.takeWhile Char.isDigit
      let r1 := r.dropWhile Char.isDigit
      if d.isEmpty then none
      else
        match r1 with
        | ':' :: ' ' :: r2 =>
          if !r2.isEmpty && r2.all isWordOrSpace then some r2 else none
        | _ => none
    else none
  | _ => none

def amberErrorMatch (line : List Char) : Option (List Char) :=
  scanSuffixes amberErrorMatchAt line

/-- PATTERN_GLSLANG_ERROR tried at one start position: a word run, colon,
digits, colon space quote, a word-or-space group, closing quote. -/
def glslangErrorMatchAt (l : List Char) : Option (List Char) :=
  let w := l.takeWhile isWordChar
  let r := l.dropWhile isWordChar
  if w.isEmpty then none
  else
    match r with
    | ':' :: r1 =>
      let d := r1.takeWhile Char.isDigit
      let r2 := r1.dropWhile Char.isDigit
      if d.isEmpty then none
      else
        match r2 with
        | ':' :: ' ' :: '\'' :: r3 =>
          let g := r3.takeWhile isWordOrSpace
          let r4 := r3.dropWhile isWordOrSpace
          if g.isEmpty then none
          else
            match r4 with
            | '\'' :: _ => some g
            | _ => none
        | _ => none
    | _ => none

def glslangErrorMatch (line : List Char) : Option (List Char) :=
  scanSuffixes glslangErrorMatchAt line

/-- PATTERN_CPP_FUNCTION tried at one start position: double colon, a word
run, opening parenthesis; the group is the word run. -/
def cppFunctionMatchAt (l : List Char) : Option (List Char) :=
  match l with
  | ':' :: ':' :: r =>
    let w := r.takeWhile isWordChar
    let r2 := r.dropWhile isWordChar
    if w.isEmpty then none
    else
      match r2 with
      | '(' :: _ => some w
      | _ => none
  | _ => none

def cppFunctionMatch (line : List Char) : Option (List Char) :=
  scanSuffixes cppFunctionMatchAt line

/-- PATTERN_C_FUNCTION tried at one start position: opening parenthesis, a
word run, then either plus digits closing parenthesis, or another opening
parenthesis; the group is the word run. -/
def cFunctionMatchAt (l : List Char) : Option (List Char) :=
  match l with
  | '(' :: r =>
    let w := r.takeWhile isWordChar
    let r2 := r.dropWhile isWordChar
    if w.isEmpty then none
    else
      match r2 with
      | '+' :: r3 =>
        let d := r3.takeWhile Char.isDigit
        let r4 := r3.dropWhile Char.isDigit
        if d.isEmpty then none
        else
          match r4 with
          | ')' :: _ => some w
          | _ => none
      | '(' :: _ => some w
      | _ => none
  | _ => none

def cFunctionMatch (line : List Char) : Option (List Char) :=
  scanSuffixes cFunctionMatchAt line

def backtraceNlPart : List Char := "Backtrace:\n".data

/-- Indices of slash characters within the line following the Backtrace
marker (the dot-star of PATTERN_CATCHSEGV_STACK_FRAME cannot cross a
newline, so the slash must lie in that line). -/
def slashIdxs (line : List Char) : List Nat :=
  (line.enum.filter (fun p => p.2 == '/')).map Prod.fst

/-- Attempt PATTERN_CATCHSEGV_STACK_FRAME's tail at one slash position: a
run without slash or opening parenthesis, an opening parenthesis, a nonempty
run without closing parenthesis or plus, then a plus.  The group spans from
after the slash up to before the plus.  The two runs may cross newlines, as
the negated classes of the pattern include the newline. -/
def tryFromSlash (rest : List Char) (p : Nat) : Option (List Char) :=
  let s := rest.drop (p + 1)
  let a := s.takeWhile (fun c => c != '/' && c != '(')
  let s2 := s.dropWhile (fun c => c != '/' && c != '(')
  match s2 with
  | '(' :: s3 =>
    let b := s3.takeWhile (fun c => c != ')' && c != '+')
    let s4 := s3.dropWhile (fun c => c != ')' && c != '+')
    if b.isEmpty then none
    else
      match s4 with
      | '+' :: _ => some (a ++ '(' :: b)
      | _ => none
  | _ => none

def firstSomeIdx (f : Nat → Option (List Char)) : List Nat → Option (List Char)
  | [] => none
  | i :: is =>
    match f i with
    | some g => some g
    | none => firstSomeIdx f is

/-- The continuation of PATTERN_CATCHSEGV_STACK_FRAME after the Backtrace
marker: greedy dot-star means the rightmost viable slash wins. -/
def catchsegvAfterBt (rest : List Char) : Option (List Char) :=
  firstSomeIdx (tryFromSlash rest) (slashIdxs (rest.takeWhile (fun c => c != '\n'))).reverse

/-- Leftmost match of PATTERN_CATCHSEGV_STACK_FRAME over the whole log. -/
def catchsegvMatch : List Char → Option (List Char)
  | [] => none
  | c :: cs =>
    match
      (match dropPrefixO backtraceNlPart (c :: cs) with
       | some r => catchsegvAfterBt r
       | none => none) with
    | some g => some g
    | none => catchsegvMatch cs

def scfNeedle : List Char := "Shader compilation failed".data
def flsNeedle : List Char := "Failed to link shaders".data
def vkcgpNeedle : List Char := "Calling vkCreateGraphicsPipelines Fail".data
def rdwNeedle : List Char := "Resource deadlock would occur".data
def errorLineNeedle : List Char := "error: line ".data
def zeroPassNeedle : List Char := "0 pass, 1 fail".data
def spvNotGenNeedle : List Char := "SPIR-V is not generated for failed compile or link".data
def pc00Needle : List Char := "#00 pc".data
def backtraceNeedle : List Char := "Backtrace:".data
def amberNdkNeedle : List Char := "/amber_ndk".data

def compileErrorSig : List Char := "compile_error".data
def linkErrorSig : List Char := "link_error".data
def pipelineFailureSig : List Char := "pipeline_failure".data
def rdwSig : List Char := "Resource_deadlock_would_occur".data
def amberNdkSig : List Char := "amber_ndk".data
def noSignatureSig : List Char := "no_signature".data

/-- The android-backtrace rule: the first line containing the pc marker is
trimmed to that marker and examined; afterwards the loop breaks, so failure
falls through to the next cascade rule. -/
def pc00Signature : List (List Char) → Option (List Char)
  | [] => none
  | l :: ls =>
    match dropToSub pc00Needle l with
    | none => pc00Signature ls
    | some l2 =>
      if containsSub l2 amberNdkNeedle then some amberNdkSig
      else
        match cppFunctionMatch l2 with
        | some g => some g
        | none => cFunctionMatch l2

/-- The signature classifier cascade of get_signature_from_log_contents,
over character lists. -/
def classifyChars (log : List Char) : List Char :=
  if containsSub log scfNeedle then compileErrorSig
  else if containsSub log flsNeedle then linkErrorSig
  else if containsSub log vkcgpNeedle then pipelineFailureSig
  else if containsSub log rdwNeedle then rdwSig
  else
    match
      (if containsSub log errorLineNeedle then
        firstLineMatch spirvOptErrorMatch (splitOnNl log)
      else none) with
    | some g => (subNonWord (stripDigits g)).take 20
    | none =>
      match
        (if containsSub log zeroPassNeedle then
          firstLineMatch amberErrorMatch (splitOnNl log)
        else none) with
      | some g => subNonWord (stripDigits g)
      | none =>
        match
          (if containsSub log spvNotGenNeedle then
            firstLineMatch glslangErrorMatch (splitOnNl log)
          else none) with
        | some g => subNonWord (stripDigits g)
        | none =>
          match
            (if containsSub log pc00Needle then pc00Signature (splitOnNl log)
            else none) with
          | some g => g
          | none =>
            match
              (if containsSub log backtraceNeedle then catchsegvMatch log
              else none) with
            | some g => (subNonWord g).take 50
            | none => noSignatureSig

/-- get_signature_from_log_contents from gfauto/fuzz.py. -/
def getSignatureFromLogContents (logContents : String) : String :=
  ⟨classifyChars logContents.data⟩

/-!  Binary Resolution Manager (gfauto/binaries_util.py).  -/

/-- The Binary proto record: logical tool name, content-identifier version,
tag labels, archive-relative path. -/
structure GfBinary where
  name : String
  version : String
  tags : List String
  path : String
deriving DecidableEq

/-- The Archive proto record. -/
structure GfArchive where
  url : String
  outputFile : String
  outputDirectory : String
deriving DecidableEq

/-- The ArchiveSet proto record: archives plus the binaries they yield. -/
structure GfArchiveSet where
  archives : List GfArchive
  binaries : List GfBinary
deriving DecidableEq

/-- The catalog scan of BinaryManager.get_binary_path on a cache miss (a
fresh manager has an empty _resolved_paths map): scan archive sets in
catalog order, and inside each, its binaries in order; accept when name and
version match and the tag set of the request extended with the current
platform is a subset of the catalog binary's tags.  The result is the
accepted catalog binary together with its artifact path, from which the
concrete filesystem path is obtained by artifact_get_inner_file_path; none
models raising BinaryPathNotFound. -/
def getBinaryPath (b : GfBinary) (platform : String) :
    List (GfArchiveSet × String) → Option (GfBinary × String)
  | [] => none
  | (archiveSet, artifactPath) :: rest =>
    match archiveSet.binaries.find? (fun ab =>
        ab.name == b.name && ab.version == b.version
          && (platform :: b.tags).all (fun t => ab.tags.contains t)) with
    | some ab => some (ab, artifactPath)
    | none => getBinaryPath b platform rest

/-- The catalog flattened in scan order: every archive-set binary paired
with its artifact path. -/
def catalogEntries (arts : List (GfArchiveSet × String)) : List (GfBinary × String) :=
  (arts.map (fun p => p.1.binaries.map (fun ab => (ab, p.2)))).flatten

/-- Modelled from the spec's words for claim C4: accept an archive-set
binary iff name and version match and lookup_tags, i.e. the requested tags
together with the current platform, is a subset of the binary's tags. -/
def specBinaryMatches (b : GfBinary) (platform : String) (ab : GfBinary) : Prop :=
  ab.name = b.name ∧ ab.version = b.version ∧
    ∀ t ∈ platform :: b.tags, t ∈ ab.tags

instance (b : GfBinary) (platform : String) (ab : GfBinary) :
    Decidable (specBinaryMatches b platform ab) := by
  unfold specBinaryMatches
  infer_instance

/-- Modelled from the spec's words for claim C4: the first catalog entry,
in catalog order, matching the requested descriptor. -/
def specFirstMatch (b : GfBinary) (platform : String)
    (arts : List (GfArchiveSet × String)) : Option (GfBinary × String) :=
  (catalogEntries arts).find? (fun q => decide (specBinaryMatches b platform q.1))

/-- The two lookup exceptions of binaries_util.py. -/
inductive BinaryLookupError where
  | binaryNotFound
  | binaryPathNotFound
deriving DecidableEq

/-- BinaryManager.get_binary_by_name_from_list: first binary in the list
whose name matches; raising BinaryNotFound otherwise. -/
def getBinaryByNameFromList (name : String) :
    List GfBinary → Except BinaryLookupError GfBinary
  | [] => .error .binaryNotFound
  | b :: bs =>
    if b.name == name then .ok b else getBinaryByNameFromList name bs

/-- The state of a BinaryManager: the override list (_binary_list), the
current platform, and the binary artifact catalog. -/
structure GfBinaryManager where
  binaryList : List GfBinary
  platform : String
  binaryArtifacts : List (GfArchiveSet × String)

/-- get_binary_path as a manager method, with BinaryPathNotFound made
explicit. -/
def managerGetBinaryPath (m : GfBinaryManager) (b : GfBinary) :
    Except BinaryLookupError (GfBinary × String) :=
  match getBinaryPath b m.platform m.binaryArtifacts with
  | some r => .ok r
  | none => .error .binaryPathNotFound

/-- BinaryManager.get_binary_path_by_name: resolve the name through the
override list, then resolve that descriptor to a path; the ok value pairs
the resolved catalog entry with the descriptor that was looked up. -/
def getBinaryPathByName (m : GfBinaryManager) (name : String) :
    Except BinaryLookupError ((GfBinary × String) × GfBinary) :=
  match getBinaryByNameFromList name m.binaryList with
  | .error e => .error e
  | .ok b =>
    match managerGetBinaryPath m b with
    | .error e => .error e
    | .ok p => .ok (p, b)

/-!  run_shader_job device dispatch (gfauto/fuzz.py).  -/

/-- The device kinds distinguished by run_shader_job's HasField tests. -/
inductive GfDeviceKind where
  | preprocess
  | host
  | swiftShader
  | android
deriving DecidableEq

/-- The externally observable steps of run_shader_job. -/
inductive ShaderRunAction where
  | convertShaderJobToAmber
  | writeStatus (status : String)
  | runAmberOnHost
  | runAmberOnAndroidDevice
  | logAmberFile
deriving DecidableEq

/-- The action sequence of run_shader_job, following the source's control
flow: convert the shader job to an Amber script (writing HOST_CRASH and
returning if the conversion subprocess fails), then dispatch on device
kind: preprocess writes SUCCESS and returns; a host or swift_shader device
runs Amber locally; afterwards run_amber_on_device is invoked without any
guard, and the Amber log is appended. -/
def runShaderJobActions (device : GfDeviceKind) (amberConversionOk : Bool) :
    List ShaderRunAction :=
  ShaderRunAction.convertShaderJobToAmber ::
    (if !amberConversionOk then [ShaderRunAction.writeStatus "HOST_CRASH"]
     else if device = .preprocess then [ShaderRunAction.writeStatus "SUCCESS"]
     else
       (if device = .host || device = .swiftShader then
         [ShaderRunAction.runAmberOnHost]
       else []) ++
         [ShaderRunAction.runAmberOnAndroidDevice, ShaderRunAction.logAmberFile])

/-!  The fuzzing loop's per-iteration preset handling (gfauto/fuzz.py main).  -/

/-- The six optimizer-argument presets, in the order in which main builds
the sibling test directories. -/
inductive SpirvOptPreset where
  | noOpt
  | optO
  | optOs
  | optRand1
  | optRand2
  | optRand3
deriving DecidableEq

def fuzzPresetOrder : List SpirvOptPreset :=
  [.noOpt, .optO, .optOs, .optRand1, .optRand2, .optRand3]

/-- The trace of handle_test invocations in one loop iteration: each
invoked preset paired with the report paths handle_test returned; the for
loop breaks as soon as a nonempty report list is returned. -/
def fuzzIterationTrace {α : Type} (handleTest : SpirvOptPreset → List α) :
    List SpirvOptPreset → List (SpirvOptPreset × List α)
  | [] => []
  | p :: ps =>
    (p, handleTest p) ::
      (if (handleTest p).isEmpty then fuzzIterationTrace handleTest ps else [])

/-!  remove_end (gfauto/util.py).  -/

/-- Python slicing s[:k] for an integer bound: a negative bound counts from
the end, clamped at zero. -/
def pythonSliceUpto (l : List Char) (k : Int) : List Char :=
  l.take (if k < 0 then ((l.length : Int) + k).toNat else k.toNat)

/-- remove_end from gfauto/util.py: assert that the string ends with the
suffix (none models the assertion failing), then slice off its length from
the end. -/
def removeEnd (strIn strEnd : String) : Option String :=
  if strEnd.data.isSuffixOf strIn.data then
    some ⟨pythonSliceUpto strIn.data (-(strEnd.data.length : Int))⟩
  else none

/-!  add_amber_test_to_must_pass (gfauto/add_amber_tests_to_cts.py).

The function streams a must-pass file line by line.  We model the file
content as the list of its lines, where Python file iteration yields each
line with its trailing newline (the final line may lack one), and the
written output as the concatenation of the emitted lines.  Writing the
empty string returned by readline at end of file does not change the
content and is omitted from the emitted line lists. -/

/-- Python line iteration: split after each newline; a final segment
without a newline is yielded as is; the empty content yields nothing. -/
def pyLines : List Char → List (List Char)
  | [] => []
  | c :: cs =>
    if c = '\n' then ['\n'] :: pyLines cs
    else
      match pyLines cs with
      | [] => [[c]]
      | l :: ls => (c :: l) :: ls

/-- Python lexicographic string comparison, greater or equal, by code
points. -/
def lexGe : List Char → List Char → Bool
  | [], [] => true
  | [], _ :: _ => false
  | _ :: _, [] => true
  | a :: as, b :: bs =>
    if a < b then false
    else if a = b then lexGe as bs
    else true

def gfTestMarker : List Char := "dEQP-VK.graphicsfuzz.".data

/-- A line belonging to the GraphicsFuzz block of a must-pass list. -/
def isGfLine (l : List Char) : Bool :=
  listStartsWith gfTestMarker l

/-- The line the tool inserts for a test name. -/
def lineToWrite (name : List Char) : List Char :=
  gfTestMarker ++ name ++ ['\n']

/-- The merge loop of add_amber_test_to_must_pass, starting from an unread
current line and the remaining stream: while the current line is nonempty
and below the line to write, emit it and read on; at the stopping line,
emit the line to write unless it is already that very line, then the
stopping line, then the rest of the stream. -/
def walkMP (ltw : List Char) : List Char → List (List Char) → List (List Char)
  | line, s =>
    if line.isEmpty || lexGe line ltw then
      if line == ltw then line :: s else ltw :: line :: s
    else
      match s with
      | [] => [line, ltw]
      | l2 :: s2 => line :: walkMP ltw l2 s2

/-- The first phase after its first step: emit lines until one starts with
the GraphicsFuzz marker, remembering the previous line; if the stream ends
first, the merge loop reruns on the already-emitted last line, duplicating
it in the output. -/
def goPhase1MP (ltw : List Char) : List Char → List (List Char) → List (List Char)
  | prev, [] => walkMP ltw prev []
  | _, l :: ls =>
    if isGfLine l then walkMP ltw l ls else l :: goPhase1MP ltw l ls

/-- add_amber_test_to_must_pass at the level of line lists. -/
def mpLines (ltw : List Char) : List (List Char) → List (List Char)
  | [] => [ltw]
  | l :: ls =>
    if isGfLine l then walkMP ltw l ls else l :: goPhase1MP ltw l ls

/-- add_amber_test_to_must_pass on file contents: the content written to
the must-pass file, given the test name and the previous content. -/
def addAmberTestToMustPassContent (amberTestName content : String) : String :=
  ⟨(mpLines (lineToWrite amberTestName.data) (pyLines content.data)).flatten⟩

/-- A well-formed text-file line: a body without newlines followed by one
terminating newline. -/
def properNlLine (l : List Char) : Prop :=
  ∃ b, '\n' ∉ b ∧ l = b ++ ['\n']

/-!  Helper lemmas about the classifier's building blocks.  -/

theorem all_isWordChar_subNonWord (l : List Char) :
    (subNonWord l).all isWordChar = true := by
  induction l with
  | nil => rfl
  | cons c cs ih =>
    simp only [subNonWord, List.map_cons, List.all_cons, Bool.and_eq_true] at *
    refine ⟨?_, ih⟩
    by_cases h : isWordChar c = true
    · rw [if_pos h]
      exact h
    · rw [if_neg h]
      decide

theorem all_takeWhile_self (p : Char → Bool) (l : List Char) :
    (l.takeWhile p).all p = true := by
  induction l with
  | nil => rfl
  | cons c cs ih =>
    by_cases h : p c = true
    · simp [List.takeWhile_cons, h, ih]
    · simp [List.takeWhile_cons, h]

theorem all_take_of_all (p : Char → Bool) (l : List Char) (n : Nat)
    (h : l.all p = true) : (l.take n).all p = true := by
  refine List.all_eq_true.mpr fun x hx => ?_
  exact List.all_eq_true.mp h x (List.take_subset n l hx)

theorem cppFunctionMatchAt_word {l g : List Char}
    (h : cppFunctionMatchAt l = some g) : g.all isWordChar = true := by
  simp only [cppFunctionMatchAt] at h
  split at h
  · split at h
    · exact absurd h (by simp)
    · split at h
      · cases h
        exact all_takeWhile_self _ _
      · exact absurd h (by simp)
  · exact absurd h (by simp)

theorem cFunctionMatchAt_word {l g : List Char}
    (h : cFunctionMatchAt l = some g) : g.all isWordChar = true := by
  simp only [cFunctionMatchAt] at h
  split at h
  · split at h
    · exact absurd h (by simp)
    · split at h
      · split at h
        · exact absurd h (by simp)
        · split at h
          · cases h
            exact all_takeWhile_self _ _
          · exact absurd h (by simp)
      · cases h
        exact all_takeWhile_self _ _
      · exact absurd h (by simp)
  · exact absurd h (by simp)

theorem scanSuffixes_word {f : List Char → Option (List Char)}
    (hf : ∀ x g, f x = some g → g.all isWordChar = true) :
    ∀ l g, scanSuffixes f l = some g → g.all isWordChar = true := by
  intro l
  induction l with
  | nil => exact fun g h => hf [] g h
  | cons c cs ih =>
    intro g h
    rw [scanSuffixes] at h
    cases hfc : f (c :: cs) with
    | some g2 =>
      rw [hfc] at h
      cases h
      exact hf _ _ hfc
    | none =>
      rw [hfc] at h
      exact ih g h

theorem pc00Signature_word : ∀ {ls : List (List Char)} {g : List Char},
    pc00Signature ls = some g → g.all isWordChar = true := by
  intro ls
  induction ls with
  | nil => intro g h; exact absurd h (by simp [pc00Signature])
  | cons l ls ih =>
    intro g h
    rw [pc00Signature] at h
    cases hd : dropToSub pc00Needle l with
    | none =>
      rw [hd] at h
      exact ih h
    | some l2 =>
      rw [hd] at h
      dsimp only at h
      by_cases hc : containsSub l2 amberNdkNeedle = true
      · rw [if_pos hc] at h
        cases h
        decide
      · rw [if_neg hc] at h
        cases hcpp : cppFunctionMatch l2 with
        | some g2 =>
          rw [hcpp] at h
          obtain rfl : g2 = g := by injection h
          exact scanSuffixes_word (fun x y hx => cppFunctionMatchAt_word hx) l2 g2 hcpp
        | none =>
          rw [hcpp] at h
          exact scanSuffixes_word (fun x g hx => cFunctionMatchAt_word hx) l2 g h

/-!  Claim theorems: signature classifier.  -/

/-- C1 (counterexample): the claimed invariant that the classifier's result
always matches [A-Za-z0-9_] repeated one to fifty times fails, because the
result can be empty: on the log text colon-line-zero-colon-five, the
spirv-opt rule matches the message consisting of the single digit five,
digit stripping erases it, and the empty string is returned. -/
theorem signature_can_be_empty_cex :
    getSignatureFromLogContents "error: line 0: 5" = "" := by decide

/-- C1 (amended): for ASCII log texts, every character of the string
returned by get_signature_from_log_contents lies in the class
[A-Za-z0-9_]; the string may however be empty, and rules without
truncation may return more than fifty characters. -/
theorem signature_chars_in_word_class (logContents : String)
    (_hascii : ∀ c ∈ logContents.data, c.toNat ≤ 127) :
    ((getSignatureFromLogContents logContents).data.all
      (fun c => c.isAlphanum || c == '_')) = true := by
  show (classifyChars logContents.data).all isWordChar = true
  unfold classifyChars
  split
  · decide
  split
  · decide
  split
  · decide
  split
  · decide
  split
  · exact all_take_of_all _ _ _ (all_isWordChar_subNonWord _)
  split
  · exact all_isWordChar_subNonWord _
  split
  · exact all_isWordChar_subNonWord _
  split
  · next g heq =>
    split at heq
    · exact pc00Signature_word heq
    · exact absurd heq (by simp)
  split
  · exact all_take_of_all _ _ _ (all_isWordChar_subNonWord _)
  decide

/-- C1 (witness for the amended claim at a concrete ASCII log). -/
theorem signature_chars_in_word_class_witness :
    ((getSignatureFromLogContents "GPU hang detected").data.all
      (fun c => c.isAlphanum || c == '_')) = true :=
  signature_chars_in_word_class "GPU hang detected" (by decide)

/-- C5: the spirv-opt rule on the unreachable-blocks log: message with
digits stripped, non-word characters replaced by underscore, truncated to
twenty characters. -/
theorem spirv_opt_error_signature_value :
    getSignatureFromLogContents "error: line 0: Module contains unreachable blocks"
      = "Module_contains_unre" := by decide

/-- C2 (counterexample): on the catchsegv log of the claim, the classifier
does not return the forty-character string the claim states. -/
theorem catchsegv_signature_cex :
    getSignatureFromLogContents
        "Backtrace:\n/path/spirv-opt(_ZN8spvtools3opt21StructuredCFGAnalysisXYZ+0x5)"
      ≠ "spirv_opt__ZN8spvtools3opt21StructuredCF" := by decide

/-- C2 (amended): the catchsegv rule's group spans from after the last
slash through the symbol, substitution yields fifty-two characters, and
truncation to fifty keeps the prefix up to StructuredCFGAnalysisX. -/
theorem catchsegv_signature_value :
    getSignatureFromLogContents
        "Backtrace:\n/path/spirv-opt(_ZN8spvtools3opt21StructuredCFGAnalysisXYZ+0x5)"
      = "spirv_opt__ZN8spvtools3opt21StructuredCFGAnalysisX" := by decide

/-- C6: whenever the log contains the shader-compilation-failed needle, the
first cascade rule fires and the classifier returns compile_error, whatever
else the log contains. -/
theorem compile_error_rule_first (logContents : String)
    (h : containsSub logContents.data scfNeedle = true) :
    getSignatureFromLogContents logContents = "compile_error" := by
  show (⟨classifyChars logContents.data⟩ : String) = "compile_error"
  have hc : classifyChars logContents.data = compileErrorSig := by
    unfold classifyChars
    rw [h]
    simp
  rw [hc]
  decide

/-- C6 (witness): a log containing both the compile-error trigger and the
link-error trigger classifies as compile_error. -/
theorem compile_error_rule_first_witness :
    getSignatureFromLogContents
        "x: Shader compilation failed, then Failed to link shaders"
      = "compile_error" :=
  compile_error_rule_first
    "x: Shader compilation failed, then Failed to link shaders" (by decide)

/-!  Claim theorem: run_shader_job device dispatch.  -/

/-- C3 (code evidence): after a successful Amber-script conversion on a
host or swift_shader device, the action trace contains the device-specific
Amber runner invocation, because the host branch of run_shader_job does not
return before the unconditional run_amber_on_device call. -/
theorem run_shader_job_host_runs_device_amber :
    ShaderRunAction.runAmberOnAndroidDevice ∈ runShaderJobActions .host true
      ∧ ShaderRunAction.runAmberOnAndroidDevice ∈ runShaderJobActions .swiftShader true
      ∧ runShaderJobActions .host true
          = [ShaderRunAction.convertShaderJobToAmber, ShaderRunAction.runAmberOnHost,
             ShaderRunAction.runAmberOnAndroidDevice, ShaderRunAction.logAmberFile] := by
  decide

/-!  Claim theorem: fuzzing-loop short circuit.  -/

theorem fuzzIterationTrace_spec {α : Type} (handleTest : SpirvOptPreset → List α) :
    ∀ ps : List SpirvOptPreset,
      (fuzzIterationTrace handleTest ps).map Prod.fst
          = ps.take (fuzzIterationTrace handleTest ps).length
        ∧ ((fuzzIterationTrace handleTest ps).dropLast.all
            (fun pr => pr.2.isEmpty)) = true := by
  intro ps
  induction ps with
  | nil => exact ⟨rfl, rfl⟩
  | cons p ps ih =>
    rw [fuzzIterationTrace]
    by_cases h : (handleTest p).isEmpty = true
    · rw [if_pos h]
      obtain ⟨ih1, ih2⟩ := ih
      constructor
      · rw [List.map_cons, List.length_cons, List.take_succ_cons, ih1]
      · cases hT : fuzzIterationTrace handleTest ps with
        | nil => simp
        | cons t ts =>
          rw [hT] at ih2
          rw [List.dropLast_cons₂, List.all_cons, ih2, h]
          rfl
    · rw [if_neg h]
      exact ⟨rfl, rfl⟩

/-- C7: within one loop iteration the sibling tests are handled in the
preset order in which main builds them, and handle_test is not invoked for
any preset after the first one that returns a nonempty report list: the
invoked presets form a prefix of the preset order, and every invocation
except possibly the last returned an empty report list. -/
theorem fuzz_iteration_short_circuit {α : Type} (handleTest : SpirvOptPreset → List α) :
    (fuzzIterationTrace handleTest fuzzPresetOrder).map Prod.fst
        = fuzzPresetOrder.take (fuzzIterationTrace handleTest fuzzPresetOrder).length
      ∧ ((fuzzIterationTrace handleTest fuzzPresetOrder).dropLast.all
          (fun pr => pr.2.isEmpty)) = true :=
  fuzzIterationTrace_spec handleTest fuzzPresetOrder

/-!  Claim theorems: binary manager.  -/

/-- The scan of get_binary_path equals the first match of the flattened
catalog under the spec's acceptance condition. -/
theorem getBinaryPath_eq_specFirstMatch (b : GfBinary) (platform : String)
    (arts : List (GfArchiveSet × String)) :
    getBinaryPath b platform arts = specFirstMatch b platform arts := by
  induction arts with
  | nil => rfl
  | cons a rest ih =>
    obtain ⟨archiveSet, artifactPath⟩ := a
    rw [getBinaryPath, ih]
    unfold specFirstMatch catalogEntries
    rw [List.map_cons, List.flatten_cons, List.find?_append, List.find?_map]
    dsimp only
    have hpred :
        ((fun q : GfBinary × String => decide (specBinaryMatches b platform q.1)) ∘
            (fun ab : GfBinary => (ab, artifactPath)))
          = (fun ab : GfBinary =>
              ab.name == b.name && ab.version == b.version
                && (platform :: b.tags).all (fun t => ab.tags.contains t)) := by
      funext ab
      simp only [Function.comp_apply]
      rw [Bool.eq_iff_iff]
      simp only [decide_eq_true_eq, Bool.and_eq_true, beq_iff_eq, List.all_eq_true]
      unfold specBinaryMatches
      constructor
      · rintro ⟨h1, h2, h3⟩
        exact ⟨⟨h1, h2⟩, fun t ht => List.elem_iff.mpr (h3 t ht)⟩
      · rintro ⟨⟨h1, h2⟩, h3⟩
        exact ⟨h1, h2, fun t ht => List.elem_iff.mp (h3 t ht)⟩
    rw [hpred]
    cases hfind : archiveSet.binaries.find? (fun ab =>
        ab.name == b.name && ab.version == b.version
          && (platform :: b.tags).all (fun t => ab.tags.contains t)) with
    | some ab => rfl
    | none => rfl

/-- C4: get_binary_path scans the catalog in order, and inside each archive
set its binaries in order, and returns the first entry matching the spec's
acceptance condition, paired with its artifact path; it reports
BinaryPathNotFound, modelled as none, exactly when no catalog entry
matches. -/
theorem get_binary_path_first_match (b : GfBinary) (platform : String)
    (arts : List (GfArchiveSet × String)) :
    getBinaryPath b platform arts = specFirstMatch b platform arts
      ∧ (getBinaryPath b platform arts = none
          ↔ ∀ q ∈ catalogEntries arts, ¬ specBinaryMatches b platform q.1) := by
  refine ⟨getBinaryPath_eq_specFirstMatch b platform arts, ?_⟩
  rw [getBinaryPath_eq_specFirstMatch b platform arts]
  unfold specFirstMatch
  rw [List.find?_eq_none]
  constructor
  · intro hall q hq hspec
    exact hall q hq (by simpa using hspec)
  · intro hall q hq hdec
    exact hall q hq (by simpa using hdec)

theorem getBinaryByNameFromList_none_iff (name : String) :
    ∀ l : List GfBinary,
      getBinaryByNameFromList name l = .error .binaryNotFound
        ↔ ∀ b ∈ l, b.name ≠ name := by
  intro l
  induction l with
  | nil => simp [getBinaryByNameFromList]
  | cons b bs ih =>
    rw [getBinaryByNameFromList]
    by_cases h : (b.name == name) = true
    · rw [if_pos h]
      simp only [List.mem_cons]
      constructor
      · intro hfalse
        cases hfalse
      · intro hall
        exact absurd (beq_iff_eq.mp h) (hall b (Or.inl rfl))
    · rw [if_neg h]
      rw [ih]
      simp only [List.mem_cons]
      constructor
      · intro hall x hx
        rcases hx with rfl | hx
        · exact fun he => h (beq_iff_eq.mpr he)
        · exact hall x hx
      · intro hall x hx
        exact hall x (Or.inr hx)

theorem getBinaryByNameFromList_ok (name : String) :
    ∀ (l : List GfBinary) (b : GfBinary),
      getBinaryByNameFromList name l = .ok b →
        b.name = name
          ∧ ∃ pre suf, l = pre ++ b :: suf ∧ ∀ x ∈ pre, x.name ≠ name := by
  intro l
  induction l with
  | nil => intro b h; cases h
  | cons a bs ih =>
    intro b h
    rw [getBinaryByNameFromList] at h
    by_cases ha : (a.name == name) = true
    · rw [if_pos ha] at h
      obtain rfl : a = b := by cases h; rfl
      exact ⟨beq_iff_eq.mp ha, [], bs, rfl, by simp⟩
    · rw [if_neg ha] at h
      obtain ⟨h1, pre, suf, hsplit, hpre⟩ := ih b h
      refine ⟨h1, a :: pre, suf, by rw [hsplit, List.cons_append], ?_⟩
      intro x hx
      rcases List.mem_cons.mp hx with rfl | hx
      · exact fun he => ha (beq_iff_eq.mpr he)
      · exact hpre x hx

/-- C8: get_binary_path_by_name picks the first descriptor of the override
list whose name matches (returned as the second component of the ok value),
and it raises BinaryNotFound exactly when no descriptor in the override
list has the requested name; a path-resolution failure afterwards raises
the distinct BinaryPathNotFound instead. -/
theorem get_binary_path_by_name_spec (m : GfBinaryManager) (name : String) :
    (getBinaryPathByName m name = .error .binaryNotFound
        ↔ ∀ b ∈ m.binaryList, b.name ≠ name)
      ∧ (∀ b, getBinaryByNameFromList name m.binaryList = .ok b →
          b.name = name
            ∧ ∃ pre suf, m.binaryList = pre ++ b :: suf ∧ ∀ x ∈ pre, x.name ≠ name)
      ∧ (∀ p b, getBinaryPathByName m name = .ok (p, b) →
          getBinaryByNameFromList name m.binaryList = .ok b) := by
  refine ⟨?_, getBinaryByNameFromList_ok name m.binaryList, ?_⟩
  · rw [← getBinaryByNameFromList_none_iff name m.binaryList]
    unfold getBinaryPathByName
    cases hn : getBinaryByNameFromList name m.binaryList with
    | error e =>
      dsimp only
      constructor
      · intro h
        have he : e = .binaryNotFound := by injection h
        rw [he]
      · intro h
        have he : e = .binaryNotFound := by injection h
        rw [he]
    | ok b =>
      simp only
      unfold managerGetBinaryPath
      cases hp : getBinaryPath b m.platform m.binaryArtifacts with
      | some r => simp
      | none => simp
  · intro p b h
    unfold getBinaryPathByName at h
    cases hn : getBinaryByNameFromList name m.binaryList with
    | error e => rw [hn] at h; cases h
    | ok b2 =>
      rw [hn] at h
      dsimp only at h
      cases hp : managerGetBinaryPath m b2 with
      | error e => rw [hp] at h; cases h
      | ok r =>
        rw [hp] at h
        obtain rfl : b2 = b := by cases h; rfl
        rfl

/-- C8 (witness): on a manager whose override list lacks the requested
name, the lookup raises BinaryNotFound. -/
theorem get_binary_path_by_name_spec_witness :
    getBinaryPathByName ⟨[⟨"spirv-dis", "v1", [], "p"⟩], "Linux", []⟩ "spirv-opt"
      = .error .binaryNotFound :=
  (get_binary_path_by_name_spec ⟨[⟨"spirv-dis", "v1", [], "p"⟩], "Linux", []⟩ "spirv-opt").1.mpr
    (by decide)

/-!  Claim theorem: remove_end.  -/

/-- C10: for a nonempty suffix, remove_end strips exactly that trailing
suffix; for the empty suffix the Python slice up to minus zero is the slice
up to zero, so the result is the empty string rather than the input. -/
theorem remove_end_spec :
    (∀ s e : String, e ≠ "" → removeEnd (s ++ e) e = some s)
      ∧ (∀ s : String, removeEnd s "" = some "") := by
  constructor
  · intro s e he
    have hed : e.data ≠ [] := by
      intro h
      apply he
      cases e
      simp_all
    unfold removeEnd
    rw [if_pos ?hsuf]
    case hsuf =>
      rw [String.data_append]
      exact List.isSuffixOf_iff_suffix.mpr ⟨s.data, rfl⟩
    have hlen : 0 < e.data.length := List.length_pos.mpr hed
    unfold pythonSliceUpto
    rw [String.data_append]
    rw [if_pos (by omega : -(e.data.length : Int) < 0)]
    have harith :
        (((s.data ++ e.data).length : Int) + -(e.data.length : Int)).toNat
          = s.data.length := by
      rw [List.length_append]
      omega
    rw [harith, List.take_left]
  · intro s
    unfold removeEnd
    rw [if_pos (by exact List.isSuffixOf_iff_suffix.mpr ⟨s.data, by simp⟩)]
    unfold pythonSliceUpto
    norm_num

/-- C10 (witness): stripping a concrete nonempty suffix. -/
theorem remove_end_spec_witness :
    removeEnd ("shader" ++ ".json") ".json" = some "shader" :=
  remove_end_spec.1 "shader" ".json" (by decide)

/-!  Lemmas for the must-pass editor.  -/

theorem lexGe_refl (l : List Char) : lexGe l l = true := by
  induction l with
  | nil => rfl
  | cons a as ih =>
    rw [lexGe, if_neg (lt_irrefl a), if_pos rfl]
    exact ih

theorem listStartsWith_append (p r : List Char) : listStartsWith p (p ++ r) = true := by
  induction p with
  | nil => rfl
  | cons a as ih =>
    rw [List.cons_append, listStartsWith]
    rw [beq_self_eq_true a, Bool.true_and]
    exact ih

theorem isGfLine_lineToWrite (name : List Char) : isGfLine (lineToWrite name) = true := by
  unfold isGfLine lineToWrite
  rw [List.append_assoc]
  exact listStartsWith_append gfTestMarker (name ++ ['\n'])

theorem beq_false_of_gf_mismatch {a ltw : List Char}
    (ha : isGfLine a = false) (hltw : isGfLine ltw = true) : (a == ltw) = false := by
  cases hab : a == ltw with
  | false => rfl
  | true =>
    obtain rfl : a = ltw := eq_of_beq hab
    rw [ha] at hltw
    cases hltw

theorem walkMP_stop_eq {ltw line : List Char} (s : List (List Char))
    (h1 : (line.isEmpty || lexGe line ltw) = true) (h2 : (line == ltw) = true) :
    walkMP ltw line s = line :: s := by
  rw [walkMP.eq_def]
  dsimp only
  rw [if_pos h1, if_pos h2]

theorem walkMP_stop_ne {ltw line : List Char} (s : List (List Char))
    (h1 : (line.isEmpty || lexGe line ltw) = true) (h2 : (line == ltw) = false) :
    walkMP ltw line s = ltw :: line :: s := by
  rw [walkMP.eq_def]
  dsimp only
  rw [if_pos h1, if_neg (by simp [h2])]

theorem walkMP_go_nil {ltw line : List Char}
    (h1 : (line.isEmpty || lexGe line ltw) = false) :
    walkMP ltw line [] = [line, ltw] := by
  rw [walkMP.eq_def]
  dsimp only
  rw [if_neg (by simp [h1])]

theorem walkMP_go_cons {ltw line l2 : List Char} {s2 : List (List Char)}
    (h1 : (line.isEmpty || lexGe line ltw) = false) :
    walkMP ltw line (l2 :: s2) = line :: walkMP ltw l2 s2 := by
  rw [walkMP.eq_def]
  dsimp only
  rw [if_neg (by simp [h1])]

theorem walkMP_ne_nil (ltw : List Char) : ∀ s line, walkMP ltw line s ≠ [] := by
  intro s line
  by_cases h1 : (line.isEmpty || lexGe line ltw) = true
  · by_cases h2 : (line == ltw) = true
    · rw [walkMP_stop_eq s h1 h2]
      simp
    · rw [walkMP_stop_ne s h1 (Bool.not_eq_true _ ▸ h2)]
      simp
  · cases s with
    | nil =>
      rw [walkMP_go_nil (Bool.not_eq_true _ ▸ h1)]
      simp
    | cons l2 s2 =>
      rw [walkMP_go_cons (Bool.not_eq_true _ ▸ h1)]
      simp

theorem walkMP_head_gf (ltw : List Char) (hltw : isGfLine ltw = true) :
    ∀ s line w ws, isGfLine line = true → walkMP ltw line s = w :: ws →
      isGfLine w = true := by
  intro s line w ws hline h
  by_cases h1 : (line.isEmpty || lexGe line ltw) = true
  · by_cases h2 : (line == ltw) = true
    · rw [walkMP_stop_eq s h1 h2] at h
      cases h
      exact hline
    · rw [walkMP_stop_ne s h1 (Bool.not_eq_true _ ▸ h2)] at h
      cases h
      exact hltw
  · cases s with
    | nil =>
      rw [walkMP_go_nil (Bool.not_eq_true _ ▸ h1)] at h
      cases h
      exact hline
    | cons l2 s2 =>
      rw [walkMP_go_cons (Bool.not_eq_true _ ▸ h1)] at h
      cases h
      exact hline

theorem mem_walkMP (ltw : List Char) :
    ∀ s line x, x ∈ walkMP ltw line s → x = ltw ∨ x = line ∨ x ∈ s := by
  intro s
  induction s with
  | nil =>
    intro line x hx
    by_cases h1 : (line.isEmpty || lexGe line ltw) = true
    · by_cases h2 : (line == ltw) = true
      · rw [walkMP_stop_eq [] h1 h2] at hx
        simp only [List.mem_singleton] at hx
        exact Or.inr (Or.inl hx)
      · rw [walkMP_stop_ne [] h1 (Bool.not_eq_true _ ▸ h2)] at hx
        rcases List.mem_cons.mp hx with rfl | hx
        · exact Or.inl rfl
        · simp only [List.mem_singleton] at hx
          exact Or.inr (Or.inl hx)
    · rw [walkMP_go_nil (Bool.not_eq_true _ ▸ h1)] at hx
      rcases List.mem_cons.mp hx with rfl | hx
      · exact Or.inr (Or.inl rfl)
      · simp only [List.mem_singleton] at hx
        exact Or.inl hx
  | cons l2 s2 ih =>
    intro line x hx
    by_cases h1 : (line.isEmpty || lexGe line ltw) = true
    · by_cases h2 : (line == ltw) = true
      · rw [walkMP_stop_eq (l2 :: s2) h1 h2] at hx
        rcases List.mem_cons.mp hx with rfl | hx
        · exact Or.inr (Or.inl rfl)
        · exact Or.inr (Or.inr hx)
      · rw [walkMP_stop_ne (l2 :: s2) h1 (Bool.not_eq_true _ ▸ h2)] at hx
        rcases List.mem_cons.mp hx with rfl | hx
        · exact Or.inl rfl
        · rcases List.mem_cons.mp hx with rfl | hx
          · exact Or.inr (Or.inl rfl)
          · exact Or.inr (Or.inr hx)
    · rw [walkMP_go_cons (Bool.not_eq_true _ ▸ h1)] at hx
      rcases List.mem_cons.mp hx with rfl | hx
      · exact Or.inr (Or.inl rfl)
      · rcases ih l2 x hx with h | h | h
        · exact Or.inl h
        · exact Or.inr (Or.inr (h ▸ List.mem_cons_self l2 s2))
        · exact Or.inr (Or.inr (List.mem_cons_of_mem l2 h))

theorem walkMP_idem (ltw : List Char) :
    ∀ s line w ws,
      walkMP ltw line s = w :: ws → walkMP ltw w ws = w :: ws := by
  have hstop : (ltw.isEmpty || lexGe ltw ltw) = true := by
    rw [lexGe_refl, Bool.or_true]
  intro s
  induction s with
  | nil =>
    intro line w ws h
    by_cases h1 : (line.isEmpty || lexGe line ltw) = true
    · by_cases h2 : (line == ltw) = true
      · rw [walkMP_stop_eq [] h1 h2] at h
        cases h
        exact walkMP_stop_eq _ h1 h2
      · rw [walkMP_stop_ne [] h1 (Bool.not_eq_true _ ▸ h2)] at h
        cases h
        exact walkMP_stop_eq _ hstop (beq_self_eq_true ltw)
    · rw [walkMP_go_nil (Bool.not_eq_true _ ▸ h1)] at h
      cases h
      rw [walkMP_go_cons (Bool.not_eq_true _ ▸ h1)]
      rw [walkMP_stop_eq [] hstop (beq_self_eq_true ltw)]
  | cons l2 s2 ih =>
    intro line w ws h
    by_cases h1 : (line.isEmpty || lexGe line ltw) = true
    · by_cases h2 : (line == ltw) = true
      · rw [walkMP_stop_eq (l2 :: s2) h1 h2] at h
        cases h
        exact walkMP_stop_eq _ h1 h2
      · rw [walkMP_stop_ne (l2 :: s2) h1 (Bool.not_eq_true _ ▸ h2)] at h
        cases h
        exact walkMP_stop_eq _ hstop (beq_self_eq_true ltw)
    · rw [walkMP_go_cons (Bool.not_eq_true _ ▸ h1)] at h
      obtain ⟨w2, ws2, hW⟩ : ∃ w2 ws2, walkMP ltw l2 s2 = w2 :: ws2 := by
        cases hW : walkMP ltw l2 s2 with
        | nil => exact absurd hW (walkMP_ne_nil _ _ _)
        | cons a b => exact ⟨a, b, rfl⟩
      rw [hW] at h
      cases h
      rw [walkMP_go_cons (Bool.not_eq_true _ ▸ h1)]
      rw [ih l2 w2 ws2 hW]

theorem goPhase1MP_nongf (ltw : List Char) :
    ∀ (ls : List (List Char)) (prev : List Char),
      (∀ l ∈ ls, isGfLine l = false) →
      goPhase1MP ltw prev ls = ls ++ walkMP ltw (ls.getLastD prev) [] := by
  intro ls
  induction ls with
  | nil => intro prev _; rfl
  | cons l ls ih =>
    intro prev hng
    rw [goPhase1MP, if_neg (by simp [hng l (List.mem_cons_self l ls)])]
    rw [ih l (fun x hx => hng x (List.mem_cons_of_mem l hx))]
    rw [List.getLastD_cons, List.cons_append]

theorem goPhase1MP_append (ltw : List Char) :
    ∀ (pre : List (List Char)) (prev w : List Char) (ws : List (List Char)),
      (∀ l ∈ pre, isGfLine l = false) → isGfLine w = true →
      goPhase1MP ltw prev (pre ++ w :: ws) = pre ++ walkMP ltw w ws := by
  intro pre
  induction pre with
  | nil =>
    intro prev w ws _ hw
    rw [List.nil_append, goPhase1MP, if_pos hw]
    rfl
  | cons p pre ih =>
    intro prev w ws hng hw
    rw [List.cons_append, goPhase1MP,
      if_neg (by simp [hng p (List.mem_cons_self p pre)])]
    rw [ih p w ws (fun x hx => hng x (List.mem_cons_of_mem p hx)) hw]
    rfl

theorem mpLines_append_pre (ltw : List Char) :
    ∀ (pre : List (List Char)) (w : List Char) (ws : List (List Char)),
      (∀ l ∈ pre, isGfLine l = false) → isGfLine w = true →
      mpLines ltw (pre ++ w :: ws) = pre ++ walkMP ltw w ws := by
  intro pre w ws hng hw
  cases pre with
  | nil =>
    rw [List.nil_append, mpLines, if_pos hw]
    rfl
  | cons p pre2 =>
    rw [List.cons_append, mpLines,
      if_neg (by simp [hng p (List.mem_cons_self p pre2)])]
    rw [goPhase1MP_append ltw pre2 p w ws
      (fun x hx => hng x (List.mem_cons_of_mem p hx)) hw]
    rfl

theorem mem_goPhase1MP (ltw : List Char) :
    ∀ (ls : List (List Char)) (prev x : List Char),
      x ∈ goPhase1MP ltw prev ls → x = ltw ∨ x = prev ∨ x ∈ ls := by
  intro ls
  induction ls with
  | nil =>
    intro prev x hx
    rcases mem_walkMP ltw [] prev x hx with h | h | h
    · exact Or.inl h
    · exact Or.inr (Or.inl h)
    · cases h
  | cons l ls ih =>
    intro prev x hx
    rw [goPhase1MP] at hx
    by_cases hl : isGfLine l = true
    · rw [if_pos hl] at hx
      rcases mem_walkMP ltw ls l x hx with h | h | h
      · exact Or.inl h
      · exact Or.inr (Or.inr (h ▸ List.mem_cons_self l ls))
      · exact Or.inr (Or.inr (List.mem_cons_of_mem l h))
    · rw [if_neg hl] at hx
      rcases List.mem_cons.mp hx with rfl | hx
      · exact Or.inr (Or.inr (List.mem_cons_self x ls))
      · rcases ih l x hx with h | h | h
        · exact Or.inl h
        · exact Or.inr (Or.inr (h ▸ List.mem_cons_self l ls))
        · exact Or.inr (Or.inr (List.mem_cons_of_mem l h))

theorem mem_mpLines (ltw : List Char) :
    ∀ (lines : List (List Char)) (x : List Char),
      x ∈ mpLines ltw lines → x = ltw ∨ x ∈ lines := by
  intro lines x hx
  cases lines with
  | nil =>
    rw [mpLines] at hx
    simp only [List.mem_singleton] at hx
    exact Or.inl hx
  | cons l ls =>
    rw [mpLines] at hx
    by_cases hl : isGfLine l = true
    · rw [if_pos hl] at hx
      rcases mem_walkMP ltw ls l x hx with h | h | h
      · exact Or.inl h
      · exact Or.inr (h ▸ List.mem_cons_self l ls)
      · exact Or.inr (List.mem_cons_of_mem l h)
    · rw [if_neg hl] at hx
      rcases List.mem_cons.mp hx with rfl | hx
      · exact Or.inr (List.mem_cons_self x ls)
      · rcases mem_goPhase1MP ltw ls l x hx with h | h | h
        · exact Or.inl h
        · exact Or.inr (h ▸ List.mem_cons_self l ls)
        · exact Or.inr (List.mem_cons_of_mem l h)

theorem dropWhile_head_false {α : Type} (p : α → Bool) :
    ∀ (l : List α) (a : α) (as : List α), l.dropWhile p = a :: as → p a = false := by
  intro l
  induction l with
  | nil => intro a as h; cases h
  | cons x xs ih =>
    intro a as h
    rw [List.dropWhile_cons] at h
    by_cases hx : p x = true
    · rw [if_pos hx] at h
      exact ih a as h
    · rw [if_neg hx] at h
      cases h
      exact Bool.not_eq_true _ ▸ hx

theorem getLastD_mem_cons {α : Type} :
    ∀ (ls : List α) (d : α), ls.getLastD d ∈ d :: ls := by
  intro ls
  induction ls with
  | nil => intro d; exact List.mem_cons_self d []
  | cons l ls ih =>
    intro d
    rw [List.getLastD_cons]
    exact List.mem_cons_of_mem d (ih l)

theorem mpLines_idem (ltw : List Char) (lines : List (List Char))
    (hgf : isGfLine ltw = true) :
    mpLines ltw (mpLines ltw lines) = mpLines ltw lines := by
  have hstop : (ltw.isEmpty || lexGe ltw ltw) = true := by
    rw [lexGe_refl, Bool.or_true]
  have hdec := List.takeWhile_append_dropWhile (p := fun l => !isGfLine l) (l := lines)
  have hpre_ng : ∀ l ∈ lines.takeWhile (fun l => !isGfLine l), isGfLine l = false := by
    intro l hl
    have := List.mem_takeWhile_imp hl
    simpa using this
  cases hpostc : lines.dropWhile (fun l => !isGfLine l) with
  | nil =>
    -- no GraphicsFuzz line in the file
    have hlines : lines = lines.takeWhile (fun l => !isGfLine l) := by
      conv_lhs => rw [← hdec]
      rw [hpostc, List.append_nil]
    have hng : ∀ l ∈ lines, isGfLine l = false := by
      intro l hl
      exact hpre_ng l (hlines ▸ hl)
    cases hlc : lines with
    | nil =>
      rw [mpLines, mpLines, if_pos hgf]
      exact walkMP_stop_eq [] hstop (beq_self_eq_true ltw)
    | cons l0 ls0 =>
      have hng0 : ∀ l ∈ l0 :: ls0, isGfLine l = false := hlc ▸ hng
      have hng_l0 : isGfLine l0 = false := hng0 l0 (List.mem_cons_self l0 ls0)
      have h1 : mpLines ltw (l0 :: ls0) = (l0 :: ls0) ++ walkMP ltw ((l0 :: ls0).getLastD l0) [] := by
        rw [mpLines, if_neg (by simp [hng_l0])]
        rw [goPhase1MP_nongf ltw ls0 l0 (fun x hx => hng0 x (List.mem_cons_of_mem l0 hx))]
        rw [List.getLastD_cons, List.cons_append]
      set a := (l0 :: ls0).getLastD l0 with ha
      have ha_mem : a ∈ l0 :: ls0 := by
        rw [ha, List.getLastD_cons]
        exact getLastD_mem_cons ls0 l0
      have ha_ng : isGfLine a = false := hng0 a ha_mem
      have ha_ne_ltw : (a == ltw) = false := beq_false_of_gf_mismatch ha_ng hgf
      rw [h1]
      by_cases hB : (a.isEmpty || lexGe a ltw) = true
      · rw [walkMP_stop_ne [] hB ha_ne_ltw]
        rw [mpLines_append_pre ltw (l0 :: ls0) ltw [a] hng0 hgf]
        rw [walkMP_stop_eq [a] hstop (beq_self_eq_true ltw)]
      · rw [walkMP_go_nil (Bool.not_eq_true _ ▸ hB)]
        have hsplit : (l0 :: ls0) ++ [a, ltw] = ((l0 :: ls0) ++ [a]) ++ [ltw] := by
          rw [List.append_assoc]
          rfl
        rw [hsplit]
        have hng1 : ∀ l ∈ (l0 :: ls0) ++ [a], isGfLine l = false := by
          intro l hl
          rcases List.mem_append.mp hl with h | h
          · exact hng0 l h
          · simp only [List.mem_singleton] at h
            exact h ▸ ha_ng
        rw [mpLines_append_pre ltw ((l0 :: ls0) ++ [a]) ltw [] hng1 hgf]
        rw [walkMP_stop_eq [] hstop (beq_self_eq_true ltw)]
  | cons g rest =>
    have hggf : isGfLine g = true := by
      have := dropWhile_head_false (fun l => !isGfLine l) lines g rest hpostc
      simpa using this
    have hlines : lines = lines.takeWhile (fun l => !isGfLine l) ++ g :: rest := by
      conv_lhs => rw [← hdec]
      rw [hpostc]
    rw [hlines]
    rw [mpLines_append_pre ltw _ g rest hpre_ng hggf]
    obtain ⟨w, ws, hW⟩ : ∃ w ws, walkMP ltw g rest = w :: ws := by
      cases hW : walkMP ltw g rest with
      | nil => exact absurd hW (walkMP_ne_nil _ _ _)
      | cons x y => exact ⟨x, y, rfl⟩
    rw [hW]
    rw [mpLines_append_pre ltw _ w ws hpre_ng
      (walkMP_head_gf ltw hgf rest g w ws hggf hW)]
    rw [walkMP_idem ltw rest g w ws hW]

theorem pyLines_eq_nil_iff : ∀ s : List Char, pyLines s = [] ↔ s = [] := by
  intro s
  cases s with
  | nil => simp [pyLines]
  | cons c cs =>
    rw [pyLines]
    by_cases hc : c = '\n'
    · rw [if_pos hc]
      simp
    · rw [if_neg hc]
      cases hP : pyLines cs with
      | nil => simp
      | cons l ls => simp

theorem pyLines_proper :
    ∀ s : List Char, (s.getLast? = some '\n' ∨ s = []) →
      ∀ l ∈ pyLines s, properNlLine l := by
  intro s
  induction s with
  | nil =>
    intro _ l hl
    simp [pyLines] at hl
  | cons c cs ih =>
    intro hend l hl
    have hend2 : cs.getLast? = some '\n' ∨ cs = [] := by
      rcases hend with h | h
      · cases cs with
        | nil => exact Or.inr rfl
        | cons d ds =>
          rw [List.getLast?_cons_cons] at h
          exact Or.inl h
      · cases h
    rw [pyLines] at hl
    by_cases hc : c = '\n'
    · rw [if_pos hc] at hl
      rcases List.mem_cons.mp hl with rfl | hl
      · exact ⟨[], by simp, rfl⟩
      · exact ih hend2 l hl
    · rw [if_neg hc] at hl
      cases hP : pyLines cs with
      | nil =>
        have hcs : cs = [] := (pyLines_eq_nil_iff cs).mp hP
        subst hcs
        rcases hend with h | h
        · simp only [List.getLast?_singleton, Option.some.injEq] at h
          exact absurd h hc
        · cases h
      | cons l0 ls0 =>
        rw [hP] at hl
        rcases List.mem_cons.mp hl with rfl | hl
        · obtain ⟨b, hb, rfl⟩ := ih hend2 l0 (hP ▸ List.mem_cons_self l0 ls0)
          refine ⟨c :: b, ?_, by rw [List.cons_append]⟩
          intro hmem
          rcases List.mem_cons.mp hmem with h | h
          · exact hc h.symm
          · exact hb h
        · exact ih hend2 l (hP ▸ List.mem_cons_of_mem l0 hl)

theorem pyLines_append_line :
    ∀ (b r : List Char), '\n' ∉ b →
      pyLines ((b ++ ['\n']) ++ r) = (b ++ ['\n']) :: pyLines r := by
  intro b
  induction b with
  | nil =>
    intro r _
    show pyLines ('\n' :: r) = ['\n'] :: pyLines r
    rw [pyLines, if_pos rfl]
  | cons c b ih =>
    intro r hnb
    have hc : c ≠ '\n' := fun h => hnb (h ▸ List.mem_cons_self c b)
    show pyLines (c :: ((b ++ ['\n']) ++ r)) = (c :: (b ++ ['\n'])) :: pyLines r
    rw [pyLines, if_neg hc]
    rw [ih r (fun h => hnb (List.mem_cons_of_mem c h))]

theorem pyLines_flatten :
    ∀ M : List (List Char), (∀ l ∈ M, properNlLine l) → pyLines M.flatten = M := by
  intro M
  induction M with
  | nil => intro _; rfl
  | cons l M ih =>
    intro hM
    obtain ⟨b, hb, rfl⟩ := hM _ (List.mem_cons_self _ M)
    rw [List.flatten_cons]
    rw [pyLines_append_line b _ hb]
    rw [ih (fun x hx => hM x (List.mem_cons_of_mem _ hx))]

/-!  Claim theorems: add_amber_test_to_must_pass.  -/

/-- C9 (counterexample): idempotence fails on a must-pass file whose only
line lacks a trailing newline and is exactly the test's line: the first run
appends a newline-terminated copy after the unterminated line, corrupting
the file, and the second run prepends yet another copy. -/
theorem add_amber_must_pass_idem_cex :
    addAmberTestToMustPassContent "t"
        (addAmberTestToMustPassContent "t" "dEQP-VK.graphicsfuzz.t")
      ≠ addAmberTestToMustPassContent "t" "dEQP-VK.graphicsfuzz.t" := by decide

/-- C9 (amended): add_amber_test_to_must_pass is idempotent on the
must-pass file content provided every line of the content is terminated by
a newline (equivalently, the content is empty or ends with a newline) and
the test name contains no newline; the inserted line is
dEQP-VK.graphicsfuzz followed by the name, placed before the first existing
line that compares greater or equal, and skipped when already present. -/
theorem add_amber_must_pass_idem (name content : String)
    (hnl : content.data.getLast? = some '\n' ∨ content = "")
    (hname : '\n' ∉ name.data) :
    addAmberTestToMustPassContent name (addAmberTestToMustPassContent name content)
      = addAmberTestToMustPassContent name content := by
  have hnl2 : content.data.getLast? = some '\n' ∨ content.data = [] := by
    rcases hnl with h | h
    · exact Or.inl h
    · exact Or.inr (by rw [h])
  have hltw_prop : properNlLine (lineToWrite name.data) := by
    refine ⟨gfTestMarker ++ name.data, ?_, by rw [lineToWrite, List.append_assoc]⟩
    intro hmem
    rcases List.mem_append.mp hmem with h | h
    · revert h
      decide
    · exact hname h
  have hgf : isGfLine (lineToWrite name.data) = true := isGfLine_lineToWrite name.data
  have hout_proper :
      ∀ l ∈ mpLines (lineToWrite name.data) (pyLines content.data), properNlLine l := by
    intro l hl
    rcases mem_mpLines (lineToWrite name.data) (pyLines content.data) l hl with h | h
    · exact h ▸ hltw_prop
    · exact pyLines_proper content.data hnl2 l h
  show (⟨(mpLines (lineToWrite name.data)
      (pyLines (String.data ⟨(mpLines (lineToWrite name.data)
        (pyLines content.data)).flatten⟩))).flatten⟩ : String)
    = ⟨(mpLines (lineToWrite name.data) (pyLines content.data)).flatten⟩
  rw [show String.data ⟨(mpLines (lineToWrite name.data)
      (pyLines content.data)).flatten⟩
    = (mpLines (lineToWrite name.data) (pyLines content.data)).flatten from rfl]
  rw [pyLines_flatten _ hout_proper]
  rw [mpLines_idem (lineToWrite name.data) (pyLines content.data) hgf]

/-- C9 (witness): idempotence on a concrete newline-terminated must-pass
file. -/
theorem add_amber_must_pass_idem_witness :
    addAmberTestToMustPassContent "t"
        (addAmberTestToMustPassContent "t" "aaa\ndEQP-VK.graphicsfuzz.s\nzzz\n")
      = addAmberTestToMustPassContent "t" "aaa\ndEQP-VK.graphicsfuzz.s\nzzz\n" :=
  add_amber_must_pass_idem "t" "aaa\ndEQP-VK.graphicsfuzz.s\nzzz\n"
    (by decide) (by decide)
